import Mathlib

/-!
Verification development for the LOOT plugin loading and sorting core.

The definitions below shallowly embed the C++ source:
* `src/backend/game/game.cpp` — plugin registry, `LoadPlugins`, `IsPluginActive`,
  `addPlugin`;
* the plugin sorter (graph builder, priority resolver, topological sorter and
  sort session), whose implementation is not among the excerpted sources and is
  therefore modelled from the specification (each such definition is marked
  `Modelled from the spec:`).
-/

namespace Loot

/-- Case folding of plugin names, embedding `boost::locale::to_lower` as used in
`Game::addPlugin` and `Game::IsPluginActive` (ASCII lowering suffices for the
plugin names involved). -/
def lowerChar (c : Char) : Char :=
  if 'A' ≤ c ∧ c ≤ 'Z' then Char.ofNat (c.toNat + 32) else c

/-- Case-folded key of a plugin name (`boost::locale::to_lower(name)`). -/
def foldKey (s : String) : String := ⟨s.data.map lowerChar⟩

/-- Immutable per-plugin facts obtained from parsing (spec §3 `PluginRecord`,
the data the `Plugin` class exposes to `Game` and the sorter). -/
structure PluginRecord where
  name : String
  isMaster : Bool
  structuralMasters : List String
  isActive : Bool
deriving DecidableEq, Repr

/-- The plugin registry `Game::plugins`: a map from case-folded name to record,
embedded as an association list in insertion order. -/
abbrev Registry := List (String × PluginRecord)

/-- Keys currently present in a registry. -/
def keysOf (reg : Registry) : List String := reg.map Prod.fst

/-- Lookup in the registry by case-folded key (`plugins.find(...)`). -/
def lookupReg (reg : Registry) (k : String) : Option PluginRecord :=
  (reg.find? (fun kv => kv.1 == k)).map Prod.snd

/-- Embedding of `Game::addPlugin`: `plugins.emplace(to_lower(plugin.Name()), plugin)`.
`emplace` on a map inserts only when the key is absent, so an existing entry is
never overwritten. -/
def addPlugin (reg : Registry) (p : PluginRecord) : Registry :=
  if (reg.find? (fun kv => kv.1 == foldKey p.name)).isSome then reg
  else reg ++ [(foldKey p.name, p)]

/-- Embedding of `Game::IsPluginActive`: look the case-folded name up in the registry and
return that record's active flag; fall back to `LoadOrderHandler` only when the
name is absent. -/
def isPluginActive (reg : Registry) (loFallback : String → Bool) (name : String) : Bool :=
  match lookupReg reg (foldKey name) with
  | some p => p.isActive
  | none => loFallback name

/-- Thread-count choice in `Game::LoadPlugins`:
`threadsToUse = min(hardware_concurrency(), sizeMap.size()); threadsToUse = max(threadsToUse, 1)`. -/
def chooseThreads (hw : Nat) (candidateCount : Nat) : Nat :=
  max (min hw candidateCount) 1

/-- One step of the candidate-distribution loop of `Game::LoadPlugins`:
`if (currentGroup == threadsToUse) currentGroup = 0; pluginGroups[currentGroup].push_back(plugin); ++currentGroup;`. -/
def distStep (k : Nat) (st : List (List String) × Nat) (x : String) :
    List (List String) × Nat :=
  let g := if st.2 == k then 0 else st.2
  (st.1.set g ((st.1.getD g []) ++ [x]), g + 1)

/-- The candidate-distribution loop of `Game::LoadPlugins`, iterating the step
over the candidates in ascending size order starting from `threadsToUse` empty
groups and `currentGroup = 0`. -/
def distribute (k : Nat) (xs : List String) : List (List String) :=
  (xs.foldl (distStep k) (List.replicate k [], 0)).1

/-- Ordered insertion into the size-keyed sequence: a new entry goes after all
entries of smaller or equal size, as `std::multimap::emplace` places it at the
upper bound of its key. -/
def insertBySize (x : Nat × String) : List (Nat × String) → List (Nat × String)
  | [] => [x]
  | y :: ys => if y.1 ≤ x.1 then y :: insertBySize x ys else x :: y :: ys

/-- The `std::multimap<uintmax_t, string> sizeMap` of `Game::LoadPlugins`,
built by one `emplace` per discovered candidate: ascending by size, stable for
equal sizes. -/
def sizeMap (cands : List (Nat × String)) : List (Nat × String) :=
  cands.foldl (fun acc c => insertBySize c acc) []

/-- The candidates in ascending file-size order, as produced by iterating
`sizeMap`. -/
def candidateNamesBySize (cands : List (Nat × String)) : List String :=
  (sizeMap cands).map Prod.snd

/-- The per-thread plugin groups built by `Game::LoadPlugins`. -/
def pluginGroups (hw : Nat) (cands : List (Nat × String)) : List (List String) :=
  distribute (chooseThreads hw cands.length) (candidateNamesBySize cands)

/-- The elements a lane receives under round-robin distribution: the members of
`xs` whose position (counted from `i`) is congruent to `g` modulo `k`. -/
def selectEveryFrom (k g : Nat) : Nat → List String → List String
  | _, [] => []
  | i, x :: xs =>
    if i % k == g then x :: selectEveryFrom k g (i + 1) xs
    else selectEveryFrom k g (i + 1) xs

/-- The members of `xs` at positions congruent to `g` modulo `k`. -/
def selectEvery (k g : Nat) (xs : List String) : List String :=
  selectEveryFrom k g 0 xs

/-- The registry effect of `Game::LoadPlugins`: every lane folds `addPlugin`
over its assigned candidates; the join barrier makes the result the sequential
accumulation of all lanes' insertions (`parse` embeds the external
`Plugin(game, name, headersOnly)` construction). -/
def loadPlugins (hw : Nat) (parse : String → PluginRecord) (reg : Registry)
    (cands : List (Nat × String)) : Registry :=
  (pluginGroups hw cands).foldl
    (fun r grp => grp.foldl (fun r n => addPlugin r (parse n)) r) reg

/-- Modelled from the spec: §4.1 failure semantics. The per-plugin parse step
of a loader lane (the `Plugin` constructor's internal error handling is not
among the excerpted sources): a parse failure is caught inside the lane,
recorded as a diagnostic against the failing plugin's key, and the lane
continues with its remaining candidates. -/
structure LaneState where
  registry : Registry
  diagnostics : List (String × String)
deriving DecidableEq

/-- Modelled from the spec: §4.1 failure semantics — one candidate of a lane:
on successful parse insert into the registry, on failure record a diagnostic
keyed by the plugin's case-folded name and keep going. -/
def laneStep (parse : String → Except String PluginRecord) (st : LaneState)
    (name : String) : LaneState :=
  match parse name with
  | .ok p => { st with registry := addPlugin st.registry p }
  | .error e => { st with diagnostics := st.diagnostics ++ [(foldKey name, e)] }

/-- Modelled from the spec: §4.1 — a lane runs sequentially over its assigned
candidates. -/
def runLane (parse : String → Except String PluginRecord) (lane : List String)
    (st : LaneState) : LaneState :=
  lane.foldl (laneStep parse) st

/-- Modelled from the spec: §3 `MetadataOverlay` — per-plugin-name ordering
facts from a curated or user document. -/
structure MetadataOverlay where
  key : String
  requirements : List String
  loadAfter : List String
  priority : Int
  isPriorityGlobal : Bool
  messages : List String
deriving DecidableEq, Repr

/-- Modelled from the spec: §3 `GameContext` — registry, curated (`masterlist`)
and user (`userlist`) overlay sets, the game's primary master file, and the
caller-visible diagnostic message list. -/
structure GameContext where
  gameMaster : String
  registry : Registry
  masterlist : List MetadataOverlay
  userlist : List MetadataOverlay
  messages : List String
deriving DecidableEq

/-- The node set of a sort: keys of all currently loaded plugins, in registry
order. -/
def nodes (ctx : GameContext) : List String := keysOf ctx.registry

/-- Lookup of an overlay entry by plugin key in one overlay source. -/
def findOverlay (l : List MetadataOverlay) (k : String) : Option MetadataOverlay :=
  l.find? (fun o => o.key == k)

/-- The overlay entry with no facts, used when a source has none for a key. -/
def defaultOverlay (k : String) : MetadataOverlay :=
  { key := k, requirements := [], loadAfter := [], priority := 0,
    isPriorityGlobal := false, messages := [] }

/-- Modelled from the spec: §3 — combine the curated and user overlay entries
for one plugin: set-union on `requirements`/`loadAfter`/`messages`, with
`priority`/`isPriorityGlobal` taken from the user source when it defines a
non-default value, otherwise from the curated source. -/
def mergedOverlay (ctx : GameContext) (k : String) : MetadataOverlay :=
  let c := (findOverlay ctx.masterlist k).getD (defaultOverlay k)
  let u := (findOverlay ctx.userlist k).getD (defaultOverlay k)
  { key := k
    requirements := c.requirements ++ u.requirements
    loadAfter := c.loadAfter ++ u.loadAfter
    priority := if u.priority ≠ 0 ∨ u.isPriorityGlobal then u.priority else c.priority
    isPriorityGlobal :=
      if u.priority ≠ 0 ∨ u.isPriorityGlobal then u.isPriorityGlobal else c.isPriorityGlobal
    messages := c.messages ++ u.messages }

/-- Edge kinds of the dependency graph (spec §3 `DependencyGraph`). -/
inductive EdgeKind
  | structural
  | requirement
  | loadAfterKind
  | priorityKind
  | gameMasterKind
deriving DecidableEq, Repr

/-- A directed edge `(predecessor, successor)` tagged with its kind. -/
structure Edge where
  pred : String
  succ : String
  kind : EdgeKind
deriving DecidableEq, Repr

/-- Modelled from the spec: §4.2 step 1 — the game's designated primary master
file (if present) precedes every other master. -/
def gameMasterEdges (ctx : GameContext) : List Edge :=
  let gm := foldKey ctx.gameMaster
  if (nodes ctx).contains gm then
    (ctx.registry.filter (fun kv => kv.2.isMaster && kv.1 != gm)).map
      (fun kv => ⟨gm, kv.1, .gameMasterKind⟩)
  else []

/-- Modelled from the spec: §4.2 step 2 — one edge from each structural master
into its dependent plugin; unknown master references create no edge. -/
def structuralEdges (ctx : GameContext) : List Edge :=
  ctx.registry.flatMap (fun kv =>
    (kv.2.structuralMasters.filter (fun m => (nodes ctx).contains m)).map
      (fun m => ⟨m, kv.1, .structural⟩))

/-- Modelled from the spec: §4.2 step 3 — one edge from each key in the merged
`requirements` and `loadAfter` sets into the plugin; keys absent from the
registry create no edge. -/
def metadataEdges (ctx : GameContext) : List Edge :=
  ctx.registry.flatMap (fun kv =>
    let o := mergedOverlay ctx kv.1
    (o.requirements.filter (fun m => (nodes ctx).contains m)).map
      (fun m => ⟨m, kv.1, .requirement⟩)
    ++ (o.loadAfter.filter (fun m => (nodes ctx).contains m)).map
      (fun m => ⟨m, kv.1, .loadAfterKind⟩))

/-- Modelled from the spec: §4.2 — the hard subgraph: GameMaster, Structural,
Requirement and LoadAfter edges, built in that order. -/
def hardEdges (ctx : GameContext) : List Edge :=
  gameMasterEdges ctx ++ structuralEdges ctx ++ metadataEdges ctx

/-- The hard edges as predecessor/successor pairs. -/
def hardPairs (ctx : GameContext) : List (String × String) :=
  (hardEdges ctx).map (fun e => (e.pred, e.succ))

/-- Modelled from the spec: §4.2 step 3 diagnostics — a referenced key absent
from the registry produces a diagnostic message and no edge. -/
def danglingDiagnostics (ctx : GameContext) : List String :=
  ctx.registry.flatMap (fun kv =>
    let o := mergedOverlay ctx kv.1
    (kv.2.structuralMasters.filter (fun m => !(nodes ctx).contains m)).map
      (fun m => "missing master " ++ m ++ " of " ++ kv.1)
    ++ (o.requirements.filter (fun m => !(nodes ctx).contains m)).map
      (fun m => "missing requirement " ++ m ++ " of " ++ kv.1)
    ++ (o.loadAfter.filter (fun m => !(nodes ctx).contains m)).map
      (fun m => "missing load-after " ++ m ++ " of " ++ kv.1))

/-- Modelled from the spec: §4.3 — the edges along which priorities propagate:
Requirement and LoadAfter edges only (not Structural or GameMaster edges). -/
def softPairs (ctx : GameContext) : List (String × String) :=
  ((metadataEdges ctx).filter
      (fun e => e.kind == .requirement || e.kind == .loadAfterKind)).map
    (fun e => (e.pred, e.succ))

/-- Explicit priority of a plugin: the merged overlay's priority (0 if unset). -/
def explicitPriority (ctx : GameContext) (k : String) : Int :=
  (mergedOverlay ctx k).priority

/-- Lookup of a node's current effective priority during the fixpoint. -/
def lookupPr (pr : List (String × Int)) (k : String) : Int :=
  match pr.find? (fun kv => kv.1 == k) with
  | some kv => kv.2
  | none => 0

/-- One node's relaxation over all propagation edges: fold `max` of the
predecessors' current values into the node's value. -/
def relaxFold (E : List (String × String)) (pr : List (String × Int)) (k : String)
    (init : Int) : Int :=
  E.foldl (fun acc e => if e.2 == k then max acc (lookupPr pr e.1) else acc) init

/-- Modelled from the spec: §4.3 — one relaxation round: every node's effective
priority becomes the max of its current value and its predecessors' current
values along propagation edges (all reads from the previous round, so the
round is independent of traversal order). -/
def relaxStep (E : List (String × String)) (pr : List (String × Int)) :
    List (String × Int) :=
  pr.map (fun kv => (kv.1, relaxFold E pr kv.1 kv.2))

/-- Repeated relaxation rounds. -/
def iterRelax (E : List (String × String)) : Nat → List (String × Int) → List (String × Int)
  | 0, pr => pr
  | n + 1, pr => iterRelax E n (relaxStep E pr)

/-- Initial effective priorities: each node starts at its explicit priority. -/
def initPr (ctx : GameContext) : List (String × Int) :=
  (nodes ctx).map (fun k => (k, explicitPriority ctx k))

/-- Modelled from the spec: §4.3 — effective priorities computed to a fixpoint
by repeated relaxation; as many rounds as there are nodes suffice on the
acyclic hard subgraph. -/
def resolvePriorities (ctx : GameContext) : List (String × Int) :=
  iterRelax (softPairs ctx) (nodes ctx).length (initPr ctx)

/-- Group of a plugin: `true` for the master group, `false` for the plugin
group (derived from `isMaster`). -/
def groupOf (ctx : GameContext) (k : String) : Bool :=
  match lookupReg ctx.registry k with
  | some p => p.isMaster
  | none => false

/-- Whether the merged overlay marks a plugin's priority as global. -/
def isGlobalPr (ctx : GameContext) (k : String) : Bool :=
  (mergedOverlay ctx k).isPriorityGlobal

/-- Modelled from the spec: §4.3 — after the fixpoint, for every ordered pair
with differing effective priorities add a Priority edge from the lower-priority
node to the higher-priority one, unconditionally when either priority is
global, otherwise only within one group. -/
def priorityEdges (ctx : GameContext) (pr : List (String × Int)) : List Edge :=
  (nodes ctx).flatMap (fun a =>
    (nodes ctx).filterMap (fun b =>
      if lookupPr pr a < lookupPr pr b
          ∧ (isGlobalPr ctx a ∨ isGlobalPr ctx b ∨ groupOf ctx a = groupOf ctx b) then
        some ⟨a, b, .priorityKind⟩
      else none))

/-- Modelled from the spec: §4.2 step 4 / §4.4 — the group partition (masters
strictly before plugins), realized for the final sort as ordered pairs from
every master-group node to every plugin-group node. -/
def groupPairs (ctx : GameContext) : List (String × String) :=
  (ctx.registry.filter (fun kv => kv.2.isMaster)).flatMap (fun m =>
    (ctx.registry.filter (fun kv => !kv.2.isMaster)).map (fun p => (m.1, p.1)))

/-- Whether a node still has an incoming edge from a remaining node. -/
def hasIncoming (E : List (String × String)) (rem : List String) (n : String) : Bool :=
  E.any (fun e => e.2 == n && rem.contains e.1)

/-- Modelled from the spec: §4.4 — the Kahn loop: repeatedly remove the first
remaining node with no incoming edge from the remaining set (ties broken by
registry discovery order, giving determinism); if none exists while nodes
remain, report the stuck set as a cycle. -/
def kahnAux (E : List (String × String)) :
    Nat → List String → List String → Except (List String) (List String)
  | 0, rem, acc => if rem.isEmpty then .ok acc.reverse else .error rem
  | fuel + 1, rem, acc =>
    if rem.isEmpty then .ok acc.reverse
    else
      match rem.find? (fun n => !hasIncoming E rem n) with
      | none => .error rem
      | some n => kahnAux E fuel (rem.erase n) (n :: acc)

/-- Modelled from the spec: §4.4 — topological sort of the given nodes under
the given edges, or the set of nodes witnessing a cycle. -/
def topoSort (ns : List String) (E : List (String × String)) :
    Except (List String) (List String) :=
  kahnAux E ns.length ns []

/-- Failure payload of a sort attempt (spec §7 `CyclicDependencyError`). -/
inductive SortError
  | cyclicDependency (cycle : List String)
deriving DecidableEq, Repr

/-- The diagnostic messages newly produced during one sort attempt. -/
def newDiagnostics (ctx : GameContext) : List String :=
  danglingDiagnostics ctx

/-- Modelled from the spec: §4.4 — the combined graph of the final sort: hard
edges + group partition (masters strictly before plugins) + priority edges. -/
def combinedPairs (ctx : GameContext) : List (String × String) :=
  hardPairs ctx ++ groupPairs ctx
    ++ (priorityEdges ctx (resolvePriorities ctx)).map (fun e => (e.pred, e.succ))

/-- Modelled from the spec: §4.4/§4.5 — one sort attempt: check the hard
subgraph for cycles, resolve priorities, sort the combined graph (hard edges +
group partition + priority edges); on success atomically replace the context's
message list with the newly produced one and return the order, on failure
return `CyclicDependencyError` and leave the context untouched. -/
def sortSession (ctx : GameContext) :
    Except SortError (List String) × GameContext :=
  match topoSort (nodes ctx) (hardPairs ctx) with
  | .error c => (.error (.cyclicDependency c), ctx)
  | .ok _ =>
    match topoSort (nodes ctx) (combinedPairs ctx) with
    | .error c => (.error (.cyclicDependency c), ctx)
    | .ok order => (.ok order, { ctx with messages := newDiagnostics ctx })

/-- A sample master record used in concrete instantiations. -/
def recM (n : String) : PluginRecord := ⟨n, true, [], false⟩

/-- A sample non-master record used in concrete instantiations. -/
def recP (n : String) : PluginRecord := ⟨n, false, [], true⟩

/-- An overlay entry carrying only load-after hints. -/
def ovLA (k : String) (la : List String) : MetadataOverlay := ⟨k, [], la, 0, false, []⟩

/-- An overlay entry carrying only an explicit priority. -/
def ovPr (k : String) (p : Int) : MetadataOverlay := ⟨k, [], [], p, false, []⟩

/-- A small context that sorts successfully and carries one pre-existing
message. -/
def exCtx : GameContext :=
  { gameMaster := "Skyrim.esm"
    registry := [("skyrim.esm", recM "Skyrim.esm"), ("blank.esp", recP "Blank.esp")]
    masterlist := []
    userlist := []
    messages := ["pre-existing"] }

/-- A context whose user overlay closes a load-after cycle between two loaded
plugins. -/
def cycCtx : GameContext :=
  { gameMaster := "Skyrim.esm"
    registry := [("a.esp", recP "A.esp"), ("b.esp", recP "B.esp")]
    masterlist := []
    userlist := [ovLA "a.esp" ["b.esp"], ovLA "b.esp" ["a.esp"]]
    messages := ["keep"] }

/-- A context with a two-hop load-after chain inheriting an explicit
priority. -/
def chainCtx : GameContext :=
  { gameMaster := "Skyrim.esm"
    registry := [("b.esp", recP "B.esp"), ("m.esp", recP "M.esp"), ("a.esp", recP "A.esp")]
    masterlist := []
    userlist := [ovPr "b.esp" 2, ovLA "m.esp" ["b.esp"], ovLA "a.esp" ["m.esp"]]
    messages := [] }

/-! ## Registry lemmas -/

theorem mem_keys_addPlugin (reg : Registry) (p : PluginRecord) (k : String) :
    k ∈ keysOf (addPlugin reg p) ↔ k ∈ keysOf reg ∨ k = foldKey p.name := by
  unfold addPlugin
  by_cases hf : (reg.find? (fun kv => kv.1 == foldKey p.name)).isSome
  · rw [if_pos hf]
    rcases Option.isSome_iff_exists.mp hf with ⟨kv, hkv⟩
    have hmem := List.mem_of_find?_eq_some hkv
    have hkey : kv.1 = foldKey p.name := by
      have := List.find?_some hkv
      simpa using this
    constructor
    · exact Or.inl
    · rintro (h | rfl)
      · exact h
      · exact hkey ▸ List.mem_map_of_mem Prod.fst hmem
  · rw [if_neg hf]
    simp [keysOf]

theorem lookupReg_addPlugin_pres (reg : Registry) (p : PluginRecord) (k : String)
    (v : PluginRecord) (h : lookupReg reg k = some v) :
    lookupReg (addPlugin reg p) k = some v := by
  unfold addPlugin
  by_cases hf : (reg.find? (fun kv => kv.1 == foldKey p.name)).isSome
  · rw [if_pos hf]; exact h
  · rw [if_neg hf]
    unfold lookupReg at h ⊢
    rcases hfind : reg.find? (fun kv => kv.1 == k) with _ | kv
    · rw [hfind] at h; simp at h
    · rw [List.find?_append, hfind]
      rw [hfind] at h
      simpa using h

/-! ## C7: lane count -/

theorem distFold_length (k : Nat) (xs : List String) :
    ∀ st : List (List String) × Nat, st.1.length = k →
      (xs.foldl (distStep k) st).1.length = k := by
  induction xs with
  | nil => intro st h; exact h
  | cons x xs ih =>
    intro st h
    rw [List.foldl_cons]
    exact ih _ (by simp [distStep, h])

/-- C7: for every candidate count `n` and available parallelism `p`,
`LoadPlugins` uses exactly `max(1, min(p, n))` worker lanes. -/
theorem pluginGroups_lane_count (hw : Nat) (cands : List (Nat × String)) :
    (pluginGroups hw cands).length = max 1 (min hw cands.length) := by
  unfold pluginGroups distribute
  rw [distFold_length _ _ _ (by simp)]
  unfold chooseThreads
  exact Nat.max_comm _ _

/-! ## C9: IsPluginActive checks the registry first -/

/-- C9: `IsPluginActive(name)` looks the case-folded name up in the registry
and, if found, returns that record's active flag; only when the name is absent
does it consult the external active-plugin-list collaborator. -/
theorem isPluginActive_registry_first (reg : Registry) (lo : String → Bool)
    (name : String) :
    (∀ p, lookupReg reg (foldKey name) = some p →
      isPluginActive reg lo name = p.isActive) ∧
    (lookupReg reg (foldKey name) = none → isPluginActive reg lo name = lo name) := by
  constructor
  · intro p h; unfold isPluginActive; rw [h]
  · intro h; unfold isPluginActive; rw [h]

/-- Witness for C9: on a registry holding an active record under the folded
key, the record's flag is returned and a contrary fallback is ignored; on a
missing name the fallback decides. -/
theorem isPluginActive_registry_first_witness :
    isPluginActive [("blank.esp", recP "Blank.esp")] (fun _ => false) "Blank.esp" = true ∧
    isPluginActive [("blank.esp", recP "Blank.esp")] (fun _ => true) "Other.esp" = true :=
  ⟨((isPluginActive_registry_first [("blank.esp", recP "Blank.esp")] (fun _ => false)
      "Blank.esp").1 (recP "Blank.esp") rfl).trans rfl,
   ((isPluginActive_registry_first [("blank.esp", recP "Blank.esp")] (fun _ => true)
      "Other.esp").2 rfl).trans rfl⟩

/-! ## C10: first insertion wins, registry keyed by case-folded name -/

/-- C10: `addPlugin` never overwrites — inserting a plugin whose case-folded
name is already in the registry leaves the registry unchanged — and it
preserves at-most-one-record-per-case-folded-name. -/
theorem addPlugin_first_insertion_wins (reg : Registry) (p : PluginRecord) :
    (∀ q, lookupReg reg (foldKey p.name) = some q → addPlugin reg p = reg) ∧
    ((keysOf reg).Nodup → (keysOf (addPlugin reg p)).Nodup) := by
  constructor
  · intro q h
    unfold lookupReg at h
    unfold addPlugin
    rcases hfind : reg.find? (fun kv => kv.1 == foldKey p.name) with _ | kv
    · rw [hfind] at h; simp at h
    · simp [hfind]
  · intro hnd
    unfold addPlugin
    by_cases hf : (reg.find? (fun kv => kv.1 == foldKey p.name)).isSome
    · rw [if_pos hf]; exact hnd
    · rw [if_neg hf]
      have hnotmem : foldKey p.name ∉ keysOf reg := by
        intro hmem
        rcases List.mem_map.mp hmem with ⟨kv, hkv, hk⟩
        have := List.find?_eq_none.mp (Option.not_isSome_iff_eq_none.mp hf) kv hkv
        simp [hk] at this
      simp only [keysOf, List.map_append, List.map_cons, List.map_nil]
      exact List.Nodup.append hnd (List.nodup_singleton _)
        (List.disjoint_singleton.mpr hnotmem)

/-- Witness for C10: re-inserting a record whose folded key is present leaves
the registry unchanged, and key uniqueness is preserved by a fresh insert. -/
theorem addPlugin_first_insertion_witness :
    addPlugin [("blank.esp", recP "Blank.esp")] (recM "BLANK.esp")
      = [("blank.esp", recP "Blank.esp")] ∧
    (keysOf (addPlugin [("blank.esp", recP "Blank.esp")] (recM "Other.esp"))).Nodup :=
  ⟨(addPlugin_first_insertion_wins [("blank.esp", recP "Blank.esp")]
      (recM "BLANK.esp")).1 (recP "Blank.esp") rfl,
   (addPlugin_first_insertion_wins [("blank.esp", recP "Blank.esp")]
      (recM "Other.esp")).2 (by decide)⟩

/-! ## C8: round-robin distribution over size-sorted candidates -/

theorem selectEveryFrom_append_one (k g : Nat) (y : String) :
    ∀ (xs : List String) (i : Nat),
      selectEveryFrom k g i (xs ++ [y])
        = selectEveryFrom k g i xs
          ++ (if (i + xs.length) % k == g then [y] else []) := by
  intro xs
  induction xs with
  | nil => intro i; simp [selectEveryFrom]
  | cons x xs ih =>
    intro i
    simp only [List.cons_append, selectEveryFrom, List.append_eq]
    rw [ih (i + 1)]
    have harith : i + 1 + xs.length = i + (x :: xs).length := by
      simp [List.length_cons]; omega
    rw [harith]
    by_cases hik : (i % k == g) = true <;> simp [hik]

theorem getD_replicate_nil (k g : Nat) :
    (List.replicate k ([] : List String)).getD g [] = [] := by
  rw [List.getD_eq_getElem?_getD]
  rcases h : (List.replicate k ([] : List String))[g]? with _ | a
  · rfl
  · have := List.getElem?_mem h
    simp [List.eq_of_mem_replicate this]

theorem wrap_succ (k n : Nat) (hk : 0 < k) :
    (if (n % k + 1 == k) = true then 0 else n % k + 1) = (n + 1) % k := by
  have hmod : (n + 1) % k = (n % k + 1) % k := by
    conv_lhs => rw [Nat.add_mod]
    rcases Nat.eq_or_lt_of_le hk with h1 | h1
    · rw [← h1]; simp [Nat.mod_one]
    · rw [Nat.mod_eq_of_lt h1]
  by_cases hc : n % k + 1 = k
  · rw [if_pos (by simpa using hc), hmod, hc, Nat.mod_self]
  · have hlt : n % k + 1 < k := by
      have := Nat.mod_lt n hk
      omega
    rw [if_neg (by simpa using hc), hmod, Nat.mod_eq_of_lt hlt]

theorem distFold_spec (k : Nat) (hk : 0 < k) (xs : List String) :
    ((xs.foldl (distStep k) (List.replicate k [], 0)).1.length = k)
    ∧ ((if (xs.foldl (distStep k) (List.replicate k [], 0)).2 == k then 0
        else (xs.foldl (distStep k) (List.replicate k [], 0)).2) = xs.length % k)
    ∧ (∀ g, g < k →
        (xs.foldl (distStep k) (List.replicate k [], 0)).1.getD g []
          = selectEveryFrom k g 0 xs) := by
  induction xs using List.reverseRecOn with
  | nil =>
    refine ⟨by simp, ?_, ?_⟩
    · have : (0 == k) = false := by
        simp only [beq_eq_false_iff_ne]; omega
      simp [this, Nat.zero_mod]
    · intro g hg
      simp [getD_replicate_nil, selectEveryFrom]
  | append_singleton xs y ih =>
    obtain ⟨ihlen, ihc, ihg⟩ := ih
    rw [List.foldl_append]
    set st := xs.foldl (distStep k) (List.replicate k [], 0) with hst
    simp only [List.foldl_cons, List.foldl_nil]
    have hglt : xs.length % k < k := Nat.mod_lt _ hk
    refine ⟨by simp [distStep, ihlen], ?_, ?_⟩
    · show (if ((if (st.2 == k) = true then 0 else st.2) + 1 == k) = true then 0
          else (if (st.2 == k) = true then 0 else st.2) + 1) = (xs ++ [y]).length % k
      rw [ihc]
      simp only [List.length_append, List.length_cons, List.length_nil, Nat.zero_add]
      exact wrap_succ k xs.length hk
    · intro g hg
      show (st.1.set (if (st.2 == k) = true then 0 else st.2)
          ((st.1.getD (if (st.2 == k) = true then 0 else st.2) []) ++ [y])).getD g []
        = selectEveryFrom k g 0 (xs ++ [y])
      rw [ihc, selectEveryFrom_append_one, Nat.zero_add]
      by_cases hgeq : xs.length % k = g
      · subst hgeq
        have hlt : xs.length % k < st.1.length := by omega
        rw [List.getD_eq_getElem?_getD, List.getElem?_set_self hlt]
        simp only [Option.getD_some, beq_self_eq_true, if_true]
        rw [ihg _ hglt]
      · have hne : ((xs.length % k) == g) = false := by
          simp only [beq_eq_false_iff_ne]; exact hgeq
        rw [List.getD_eq_getElem?_getD, List.getElem?_set_ne hgeq,
          ← List.getD_eq_getElem?_getD, ihg g hg, hne]
        simp

theorem chooseThreads_pos (hw n : Nat) : 0 < chooseThreads hw n :=
  Nat.lt_of_lt_of_le Nat.zero_lt_one (le_max_right _ 1)

/-- C8: `LoadPlugins` assigns the candidates, sorted ascending by file size, to
lanes by round-robin: lane `g` receives exactly the candidates at positions
congruent to `g` modulo the lane count, in order — so the i-th smallest
candidate goes to lane `i mod laneCount`. -/
theorem pluginGroups_round_robin (hw : Nat) (cands : List (Nat × String)) (g : Nat)
    (hg : g < chooseThreads hw cands.length) :
    (pluginGroups hw cands).getD g []
      = selectEvery (chooseThreads hw cands.length) g (candidateNamesBySize cands) :=
  (distFold_spec _ (chooseThreads_pos hw cands.length) _).2.2 g hg

/-- Witness for C8: with parallelism 2 and three candidates of sizes 1 < 2 < 3,
lane 1 receives exactly the second-smallest candidate. -/
theorem pluginGroups_round_robin_witness :
    (pluginGroups 2 [(1, "a.esp"), (2, "b.esp"), (3, "c.esp")]).getD 1 [] = ["b.esp"] :=
  (pluginGroups_round_robin 2 [(1, "a.esp"), (2, "b.esp"), (3, "c.esp")] 1
    (by decide)).trans (by decide)

/-! ## C6: what a second LoadPlugins call does to the registry -/

theorem selectEveryFrom_subset (k g : Nat) :
    ∀ (xs : List String) (i : Nat) (x : String), x ∈ selectEveryFrom k g i xs → x ∈ xs := by
  intro xs
  induction xs with
  | nil => intro i x h; cases h
  | cons y ys ih =>
    intro i x h
    unfold selectEveryFrom at h
    by_cases hik : ((i % k) == g) = true
    · rw [if_pos hik] at h
      rcases h with _ | h
      · exact List.mem_cons_self _ _
      · exact List.mem_cons_of_mem _ (ih (i + 1) x (by assumption))
    · rw [if_neg hik] at h
      exact List.mem_cons_of_mem _ (ih (i + 1) x h)

theorem mem_selectEveryFrom_of_mem (k : Nat) (hk : 0 < k) :
    ∀ (xs : List String) (x : String), x ∈ xs →
      ∀ i, ∃ g, g < k ∧ x ∈ selectEveryFrom k g i xs := by
  intro xs
  induction xs with
  | nil => intro x h; cases h
  | cons y ys ih =>
    intro x h i
    rcases h with _ | h
    · refine ⟨i % k, Nat.mod_lt _ hk, ?_⟩
      unfold selectEveryFrom
      rw [if_pos (by simp)]
      exact List.mem_cons_self _ _
    · obtain ⟨g, hg, hmem⟩ := ih x (by assumption) (i + 1)
      refine ⟨g, hg, ?_⟩
      unfold selectEveryFrom
      by_cases hik : ((i % k) == g) = true
      · rw [if_pos hik]; exact List.mem_cons_of_mem _ hmem
      · rw [if_neg hik]; exact hmem

theorem mem_distribute_iff (k : Nat) (hk : 0 < k) (xs : List String) (x : String) :
    (∃ grp ∈ distribute k xs, x ∈ grp) ↔ x ∈ xs := by
  constructor
  · rintro ⟨grp, hgrp, hx⟩
    rcases List.mem_iff_getElem.mp hgrp with ⟨j, hj, hget⟩
    have hlen : (distribute k xs).length = k := distFold_length k xs _ (by simp)
    have hjk : j < k := hlen ▸ hj
    have : (distribute k xs).getD j [] = selectEveryFrom k j 0 xs :=
      (distFold_spec k hk xs).2.2 j hjk
    rw [List.getD_eq_getElem _ _ hj, hget] at this
    exact selectEveryFrom_subset k j xs 0 x (this ▸ hx)
  · intro hx
    obtain ⟨g, hg, hmem⟩ := mem_selectEveryFrom_of_mem k hk xs x hx 0
    have hlen : (distribute k xs).length = k := distFold_length k xs _ (by simp)
    have hgl : g < (distribute k xs).length := by rw [hlen]; exact hg
    refine ⟨(distribute k xs).getD g [], ?_, ?_⟩
    · rw [List.getD_eq_getElem _ _ hgl]
      exact List.getElem_mem _
    · rw [show (distribute k xs).getD g [] = selectEveryFrom k g 0 xs from
        (distFold_spec k hk xs).2.2 g hg]
      exact hmem

theorem mem_insertBySize (x c : Nat × String) :
    ∀ l : List (Nat × String), x ∈ insertBySize c l ↔ x = c ∨ x ∈ l := by
  intro l
  induction l with
  | nil => simp [insertBySize]
  | cons y ys ih =>
    unfold insertBySize
    by_cases hc : y.1 ≤ c.1
    · rw [if_pos hc]
      simp only [List.mem_cons, ih]
      tauto
    · rw [if_neg hc]
      simp only [List.mem_cons]

theorem mem_sizeMap (cands : List (Nat × String)) (x : Nat × String) :
    x ∈ sizeMap cands ↔ x ∈ cands := by
  unfold sizeMap
  suffices h : ∀ acc : List (Nat × String),
      x ∈ cands.foldl (fun acc c => insertBySize c acc) acc ↔ x ∈ acc ∨ x ∈ cands by
    simpa using h []
  induction cands with
  | nil => intro acc; simp
  | cons c cs ih =>
    intro acc
    rw [List.foldl_cons, ih (insertBySize c acc), mem_insertBySize]
    simp only [List.mem_cons]
    tauto

theorem keys_insertNames (parse : String → PluginRecord) (names : List String) :
    ∀ (reg : Registry) (k : String),
      k ∈ keysOf (names.foldl (fun r n => addPlugin r (parse n)) reg)
        ↔ k ∈ keysOf reg ∨ ∃ n ∈ names, k = foldKey (parse n).name := by
  induction names with
  | nil => intro reg k; simp
  | cons n ns ih =>
    intro reg k
    rw [List.foldl_cons, ih (addPlugin reg (parse n)) k, mem_keys_addPlugin]
    simp only [List.mem_cons]
    constructor
    · rintro ((h | h) | ⟨m, hm, he⟩)
      · exact Or.inl h
      · exact Or.inr ⟨n, Or.inl rfl, h⟩
      · exact Or.inr ⟨m, Or.inr hm, he⟩
    · rintro (h | ⟨m, (rfl | hm), he⟩)
      · exact Or.inl (Or.inl h)
      · exact Or.inl (Or.inr he)
      · exact Or.inr ⟨m, hm, he⟩

theorem lookup_insertNames_pres (parse : String → PluginRecord) (names : List String) :
    ∀ (reg : Registry) (k : String) (v : PluginRecord),
      lookupReg reg k = some v →
      lookupReg (names.foldl (fun r n => addPlugin r (parse n)) reg) k = some v := by
  induction names with
  | nil => intro reg k v h; exact h
  | cons n ns ih =>
    intro reg k v h
    rw [List.foldl_cons]
    exact ih _ k v (lookupReg_addPlugin_pres reg (parse n) k v h)

theorem keys_foldGroups (parse : String → PluginRecord) (grps : List (List String)) :
    ∀ (reg : Registry) (k : String),
      k ∈ keysOf (grps.foldl (fun r grp => grp.foldl (fun r n => addPlugin r (parse n)) r) reg)
        ↔ k ∈ keysOf reg ∨ ∃ grp ∈ grps, ∃ n ∈ grp, k = foldKey (parse n).name := by
  induction grps with
  | nil => intro reg k; simp
  | cons grp grps ih =>
    intro reg k
    rw [List.foldl_cons, ih, keys_insertNames]
    simp only [List.mem_cons]
    constructor
    · rintro ((h | ⟨n, hn, he⟩) | ⟨g, hg, n, hn, he⟩)
      · exact Or.inl h
      · exact Or.inr ⟨grp, Or.inl rfl, n, hn, he⟩
      · exact Or.inr ⟨g, Or.inr hg, n, hn, he⟩
    · rintro (h | ⟨g, (rfl | hg), n, hn, he⟩)
      · exact Or.inl (Or.inl h)
      · exact Or.inl (Or.inr ⟨n, hn, he⟩)
      · exact Or.inr ⟨g, hg, n, hn, he⟩

theorem lookup_foldGroups_pres (parse : String → PluginRecord) (grps : List (List String)) :
    ∀ (reg : Registry) (k : String) (v : PluginRecord),
      lookupReg reg k = some v →
      lookupReg (grps.foldl (fun r grp => grp.foldl (fun r n => addPlugin r (parse n)) r) reg) k
        = some v := by
  induction grps with
  | nil => intro reg k v h; exact h
  | cons grp grps ih =>
    intro reg k v h
    rw [List.foldl_cons]
    exact ih _ k v (lookup_insertNames_pres parse grp reg k v h)

/-- Counterexample for C6: it is false that after a `LoadPlugins` call the
registry contains only records for the current candidate set — a registry
entry absent from the candidates survives the call. -/
theorem loadPlugins_full_replacement_false :
    ¬ ∀ (hw : Nat) (parse : String → PluginRecord) (reg : Registry)
        (cands : List (Nat × String)) (k : String),
        k ∈ keysOf (loadPlugins hw parse reg cands) →
        ∃ c ∈ cands, k = foldKey (parse c.2).name := by
  intro h
  have := h 1 (fun n => ⟨n, false, [], false⟩)
    [("a.esp", ⟨"a.esp", false, [], false⟩)] [(1, "B.esp")] "a.esp" (by decide)
  exact absurd this (by decide)

/-- C6 (amended): a second `LoadPlugins` call does not replace the registry:
entries already present survive unchanged (first insertion wins), and
afterwards the registry keys are exactly the union of the prior keys and the
current candidates' case-folded names. -/
theorem loadPlugins_accumulates (hw : Nat) (parse : String → PluginRecord)
    (reg : Registry) (cands : List (Nat × String)) :
    (∀ k v, lookupReg reg k = some v →
      lookupReg (loadPlugins hw parse reg cands) k = some v) ∧
    (∀ k, k ∈ keysOf (loadPlugins hw parse reg cands) ↔
      k ∈ keysOf reg ∨ ∃ c ∈ cands, k = foldKey (parse c.2).name) := by
  constructor
  · intro k v h
    exact lookup_foldGroups_pres parse _ reg k v h
  · intro k
    unfold loadPlugins
    rw [keys_foldGroups]
    have hnames : ∀ n : String, (∃ grp ∈ pluginGroups hw cands, n ∈ grp) ↔
        ∃ c ∈ cands, n = c.2 := by
      intro n
      unfold pluginGroups
      rw [mem_distribute_iff _ (chooseThreads_pos hw cands.length)]
      unfold candidateNamesBySize
      rw [List.mem_map]
      constructor
      · rintro ⟨c, hc, rfl⟩
        exact ⟨c, (mem_sizeMap cands c).mp hc, rfl⟩
      · rintro ⟨c, hc, rfl⟩
        exact ⟨c, (mem_sizeMap cands c).mpr hc, rfl⟩
    constructor
    · rintro (h | ⟨grp, hgrp, n, hn, he⟩)
      · exact Or.inl h
      · obtain ⟨c, hc, rfl⟩ := (hnames n).mp ⟨grp, hgrp, hn⟩
        exact Or.inr ⟨c, hc, he⟩
    · rintro (h | ⟨c, hc, he⟩)
      · exact Or.inl h
      · obtain ⟨grp, hgrp, hn⟩ := (hnames c.2).mpr ⟨c, hc, rfl⟩
        exact Or.inr ⟨grp, hgrp, c.2, hn, he⟩

/-- Witness for C6 (amended): a stale entry survives a second load unchanged
while the new candidate's key is added. -/
theorem loadPlugins_accumulates_witness :
    lookupReg (loadPlugins 1 (fun n => ⟨n, false, [], false⟩)
        [("a.esp", recP "A.esp")] [(1, "B.esp")]) "a.esp" = some (recP "A.esp") ∧
    "b.esp" ∈ keysOf (loadPlugins 1 (fun n => ⟨n, false, [], false⟩)
        [("a.esp", recP "A.esp")] [(1, "B.esp")]) :=
  ⟨(loadPlugins_accumulates 1 (fun n => ⟨n, false, [], false⟩)
      [("a.esp", recP "A.esp")] [(1, "B.esp")]).1 "a.esp" (recP "A.esp") rfl,
   ((loadPlugins_accumulates 1 (fun n => ⟨n, false, [], false⟩)
      [("a.esp", recP "A.esp")] [(1, "B.esp")]).2 "b.esp").mpr
     (Or.inr ⟨(1, "B.esp"), by decide, by decide⟩)⟩

/-! ## C5: per-plugin parse failures are isolated inside a lane -/

theorem runLane_registry_mono (parse : String → Except String PluginRecord)
    (lane : List String) :
    ∀ (st : LaneState) (k : String), k ∈ keysOf st.registry →
      k ∈ keysOf (runLane parse lane st).registry := by
  induction lane with
  | nil => intro st k h; exact h
  | cons n ns ih =>
    intro st k h
    unfold runLane
    rw [List.foldl_cons]
    apply ih
    unfold laneStep
    rcases parse n with e | p
    · exact h
    · exact (mem_keys_addPlugin _ _ _).mpr (Or.inl h)

theorem runLane_diagnostics_mono (parse : String → Except String PluginRecord)
    (lane : List String) :
    ∀ (st : LaneState) (d : String × String), d ∈ st.diagnostics →
      d ∈ (runLane parse lane st).diagnostics := by
  induction lane with
  | nil => intro st d h; exact h
  | cons n ns ih =>
    intro st d h
    unfold runLane
    rw [List.foldl_cons]
    apply ih
    unfold laneStep
    rcases parse n with e | p
    · exact List.mem_append_left _ h
    · exact h

/-- C5: inside one loader lane, a parse failure of one candidate is recorded
as a diagnostic against that plugin's key and the lane continues: every other
candidate that parses successfully still ends up in the registry. -/
theorem runLane_isolates_failures (parse : String → Except String PluginRecord)
    (lane : List String) (st : LaneState) :
    (∀ name p, name ∈ lane → parse name = .ok p →
      foldKey p.name ∈ keysOf (runLane parse lane st).registry) ∧
    (∀ name e, name ∈ lane → parse name = .error e →
      (foldKey name, e) ∈ (runLane parse lane st).diagnostics) := by
  induction lane generalizing st with
  | nil =>
    exact ⟨fun name p h => absurd h (List.not_mem_nil name),
      fun name e h => absurd h (List.not_mem_nil name)⟩
  | cons n ns ih =>
    constructor
    · intro name p hmem hok
      unfold runLane
      rw [List.foldl_cons]
      rcases hmem with _ | hmem
      · apply runLane_registry_mono
        unfold laneStep
        rw [hok]
        exact (mem_keys_addPlugin _ _ _).mpr (Or.inr rfl)
      · exact (ih (laneStep parse st n)).1 name p (by assumption) hok
    · intro name e hmem herr
      unfold runLane
      rw [List.foldl_cons]
      rcases hmem with _ | hmem
      · apply runLane_diagnostics_mono
        unfold laneStep
        rw [herr]
        exact List.mem_append_right _ (List.mem_singleton_self _)
      · exact (ih (laneStep parse st n)).2 name e (by assumption) herr

/-- Witness for C5: with a lane whose middle candidate fails to parse, the
failure is recorded against its key and the later candidate still loads. -/
theorem runLane_isolates_failures_witness :
    foldKey "Other.esp" ∈ keysOf
      (runLane
        (fun n => if n == "Bad.esp" then .error "parse failure" else .ok (recP n))
        ["Good.esp", "Bad.esp", "Other.esp"] ⟨[], []⟩).registry ∧
    (foldKey "Bad.esp", "parse failure") ∈
      (runLane
        (fun n => if n == "Bad.esp" then .error "parse failure" else .ok (recP n))
        ["Good.esp", "Bad.esp", "Other.esp"] ⟨[], []⟩).diagnostics :=
  ⟨(runLane_isolates_failures
      (fun n => if n == "Bad.esp" then .error "parse failure" else .ok (recP n))
      ["Good.esp", "Bad.esp", "Other.esp"] ⟨[], []⟩).1 "Other.esp" (recP "Other.esp")
      (by decide) rfl,
   (runLane_isolates_failures
      (fun n => if n == "Bad.esp" then .error "parse failure" else .ok (recP n))
      ["Good.esp", "Bad.esp", "Other.esp"] ⟨[], []⟩).2 "Bad.esp" "parse failure"
      (by decide) rfl⟩

/-! ## C3: a successful sort atomically replaces the message list -/

theorem nodes_withMessages (ctx : GameContext) (m : List String) :
    nodes { ctx with messages := m } = nodes ctx := rfl

theorem hardPairs_withMessages (ctx : GameContext) (m : List String) :
    hardPairs { ctx with messages := m } = hardPairs ctx := rfl

theorem combinedPairs_withMessages (ctx : GameContext) (m : List String) :
    combinedPairs { ctx with messages := m } = combinedPairs ctx := rfl

theorem newDiagnostics_withMessages (ctx : GameContext) (m : List String) :
    newDiagnostics { ctx with messages := m } = newDiagnostics ctx := rfl

/-- C3: whenever `Sort()` succeeds, the context's message list is replaced by
exactly the message list produced during that sort (which does not depend on
the pre-existing messages). -/
theorem sortSession_success_replaces_messages (ctx : GameContext)
    (order : List String) (h : (sortSession ctx).1 = .ok order) :
    (sortSession ctx).2.messages = newDiagnostics ctx := by
  unfold sortSession at h ⊢
  rcases h1 : topoSort (nodes ctx) (hardPairs ctx) with c | w
  · rw [h1] at h; simp at h
  · rcases h2 : topoSort (nodes ctx) (combinedPairs ctx) with c | ord
    · rw [h1, h2] at h; simp at h
    · rfl

/-- Witness for C3: a context holding one pre-existing message, sorted
successfully with zero new diagnostics, ends with an empty message list. -/
theorem sortSession_success_replaces_messages_witness :
    exCtx.messages = ["pre-existing"] ∧ (sortSession exCtx).2.messages = [] :=
  ⟨rfl,
   (sortSession_success_replaces_messages exCtx ["skyrim.esm", "blank.esp"] rfl).trans rfl⟩

/-! ## C1: sorting twice over unchanged input yields identical output -/

/-- C1: `Sort()` is deterministic — if a sort of a context succeeds with a
given order, sorting the resulting context again (the input registry and
overlays unchanged) succeeds with the identical sequence of plugin keys. -/
theorem sortSession_deterministic (ctx : GameContext) (order : List String)
    (ctx' : GameContext) (h : sortSession ctx = (.ok order, ctx')) :
    sortSession ctx' = (.ok order, ctx') := by
  unfold sortSession at h
  rcases h1 : topoSort (nodes ctx) (hardPairs ctx) with c | w
  · rw [h1] at h; simp at h
  · rcases h2 : topoSort (nodes ctx) (combinedPairs ctx) with c | ord
    · rw [h1, h2] at h; simp at h
    · rw [h1, h2] at h
      simp only [Prod.mk.injEq, Except.ok.injEq] at h
      obtain ⟨rfl, rfl⟩ := h
      unfold sortSession
      rw [nodes_withMessages, hardPairs_withMessages, combinedPairs_withMessages,
        h1, h2, newDiagnostics_withMessages]
      rfl

/-- Witness for C1: sorting the small context a second time reproduces the
identical order. -/
theorem sortSession_deterministic_witness :
    sortSession { exCtx with messages := [] }
      = (.ok ["skyrim.esm", "blank.esp"], { exCtx with messages := [] }) :=
  sortSession_deterministic exCtx ["skyrim.esm", "blank.esp"]
    { exCtx with messages := [] } rfl

/-! ## C2: a cycle makes the sort fail and leaves prior messages intact -/

theorem hasIncoming_of_edge (E : List (String × String)) (rem : List String)
    (p n : String) (hE : (p, n) ∈ E) (hp : p ∈ rem) :
    hasIncoming E rem n = true := by
  unfold hasIncoming
  rw [List.any_eq_true]
  refine ⟨(p, n), hE, ?_⟩
  simp [List.contains_iff_exists_mem_beq]
  exact hp

theorem kahnAux_cycle (E : List (String × String)) (C : List String)
    (hne : C ≠ []) (hcl : ∀ c ∈ C, ∃ p ∈ C, (p, c) ∈ E) (fuel : Nat) :
    ∀ rem acc, (∀ c ∈ C, c ∈ rem) →
      ∃ cyc, kahnAux E fuel rem acc = .error cyc := by
  induction fuel with
  | zero =>
    intro rem acc hsub
    obtain ⟨c0, hc0⟩ := List.exists_mem_of_ne_nil C hne
    have hremne : rem ≠ [] := List.ne_nil_of_mem (hsub c0 hc0)
    refine ⟨rem, ?_⟩
    unfold kahnAux
    rw [if_neg (by simpa [List.isEmpty_iff] using hremne)]
  | succ fuel ih =>
    intro rem acc hsub
    obtain ⟨c0, hc0⟩ := List.exists_mem_of_ne_nil C hne
    have hremne : rem ≠ [] := List.ne_nil_of_mem (hsub c0 hc0)
    unfold kahnAux
    rw [if_neg (by simpa [List.isEmpty_iff] using hremne)]
    rcases hfind : rem.find? (fun n => !hasIncoming E rem n) with _ | n
    · exact ⟨rem, rfl⟩
    · have hnotin : n ∉ C := by
        intro hnC
        obtain ⟨p, hpC, hpE⟩ := hcl n hnC
        have htrue := hasIncoming_of_edge E rem p n hpE (hsub p hpC)
        have hfalse := List.find?_some hfind
        rw [htrue] at hfalse
        simp at hfalse
      refine ih (rem.erase n) (n :: acc) (fun c hc => ?_)
      have hcn : c ≠ n := by
        intro he
        subst he
        exact hnotin hc
      exact (List.mem_erase_of_ne hcn).mpr (hsub c hc)

/-- C2: when the loaded plugins plus overlay load-after entries contain a
cycle (a nonempty node set each of whose members has a hard-edge predecessor
in the set), `Sort()` fails with a `CyclicDependencyError` and the context —
in particular its pre-existing diagnostic message list — is left unmodified. -/
theorem sortSession_cycle_fails (ctx : GameContext) (C : List String)
    (hne : C ≠ []) (hmem : ∀ c ∈ C, c ∈ nodes ctx)
    (hcl : ∀ c ∈ C, ∃ p ∈ C, (p, c) ∈ hardPairs ctx) :
    (∃ cyc, (sortSession ctx).1 = .error (.cyclicDependency cyc)) ∧
    (sortSession ctx).2.messages = ctx.messages := by
  obtain ⟨cyc, hcyc⟩ :=
    kahnAux_cycle (hardPairs ctx) C hne hcl (nodes ctx).length (nodes ctx) [] hmem
  have htopo : topoSort (nodes ctx) (hardPairs ctx) = .error cyc := hcyc
  constructor
  · exact ⟨cyc, by unfold sortSession; rw [htopo]⟩
  · unfold sortSession
    rw [htopo]

/-- Witness for C2: a two-plugin load-after cycle makes the sort fail with a
cycle error while the pre-existing message survives. -/
theorem sortSession_cycle_fails_witness :
    (∃ cyc, (sortSession cycCtx).1 = .error (.cyclicDependency cyc)) ∧
    (sortSession cycCtx).2.messages = ["keep"] := by
  have h := sortSession_cycle_fails cycCtx ["a.esp", "b.esp"]
    (by decide) (by decide) (by decide)
  exact ⟨h.1, h.2.trans rfl⟩

/-! ## C4: priority inheritance along load-after chains -/

theorem relaxFold_cons (e : String × String) (E : List (String × String))
    (pr : List (String × Int)) (k : String) (init : Int) :
    relaxFold (e :: E) pr k init
      = relaxFold E pr k (if e.2 == k then max init (lookupPr pr e.1) else init) := rfl

theorem le_relaxFold (E : List (String × String)) (pr : List (String × Int))
    (k : String) : ∀ init : Int, init ≤ relaxFold E pr k init := by
  induction E with
  | nil => intro init; exact le_refl _
  | cons e E ih =>
    intro init
    rw [relaxFold_cons]
    by_cases he : (e.2 == k) = true
    · rw [if_pos he]
      exact le_trans (le_max_left _ _) (ih _)
    · rw [if_neg he]
      exact ih init

theorem relaxFold_ge_pred (E : List (String × String)) (pr : List (String × Int))
    (k a : String) :
    (a, k) ∈ E → ∀ init : Int, lookupPr pr a ≤ relaxFold E pr k init := by
  induction E with
  | nil => intro h; cases h
  | cons e E ih =>
    intro hmem init
    rcases List.mem_cons.mp hmem with he | hmem'
    · cases he
      rw [relaxFold_cons, if_pos (by simp)]
      exact le_trans (le_max_right _ _) (le_relaxFold E pr k _)
    · rw [relaxFold_cons]
      exact ih hmem' _

theorem find?_relaxStep (E : List (String × String)) (pr : List (String × Int))
    (k : String) :
    (relaxStep E pr).find? (fun kv => kv.1 == k)
      = (pr.find? (fun kv => kv.1 == k)).map
          (fun kv => (kv.1, relaxFold E pr kv.1 kv.2)) := by
  unfold relaxStep
  rw [List.find?_map]
  rfl

theorem lookupPr_relaxStep_of_find (E : List (String × String))
    (pr : List (String × Int)) (k : String) (kv : String × Int)
    (h : pr.find? (fun x => x.1 == k) = some kv) :
    lookupPr (relaxStep E pr) k = relaxFold E pr k (lookupPr pr k) := by
  have hk : kv.1 = k := by simpa using List.find?_some h
  unfold lookupPr
  rw [find?_relaxStep, h]
  simp [hk]

theorem find?_isSome_relaxStep (E : List (String × String))
    (pr : List (String × Int)) (k : String) :
    ((relaxStep E pr).find? (fun kv => kv.1 == k)).isSome
      = (pr.find? (fun kv => kv.1 == k)).isSome := by
  rw [find?_relaxStep]
  rcases h : pr.find? (fun kv => kv.1 == k) with _ | kv <;> rw [h] <;> rfl

theorem lookupPr_le_relaxStep (E : List (String × String))
    (pr : List (String × Int)) (k : String)
    (h : (pr.find? (fun kv => kv.1 == k)).isSome) :
    lookupPr pr k ≤ lookupPr (relaxStep E pr) k := by
  rcases Option.isSome_iff_exists.mp h with ⟨kv, hkv⟩
  rw [lookupPr_relaxStep_of_find E pr k kv hkv]
  exact le_relaxFold E pr k _

theorem lookupPr_edge_relaxStep (E : List (String × String))
    (pr : List (String × Int)) (a b : String)
    (hE : (a, b) ∈ E) (h : (pr.find? (fun kv => kv.1 == b)).isSome) :
    lookupPr pr a ≤ lookupPr (relaxStep E pr) b := by
  rcases Option.isSome_iff_exists.mp h with ⟨kv, hkv⟩
  rw [lookupPr_relaxStep_of_find E pr b kv hkv]
  exact relaxFold_ge_pred E pr b a hE _

theorem iterRelax_succ (E : List (String × String)) (j : Nat)
    (pr : List (String × Int)) :
    iterRelax E (j + 1) pr = iterRelax E j (relaxStep E pr) := rfl

theorem find?_isSome_iterRelax (E : List (String × String)) (j : Nat) :
    ∀ (pr : List (String × Int)) (k : String),
      ((iterRelax E j pr).find? (fun kv => kv.1 == k)).isSome
        = (pr.find? (fun kv => kv.1 == k)).isSome := by
  induction j with
  | zero => intro pr k; rfl
  | succ j ih =>
    intro pr k
    rw [iterRelax_succ, ih, find?_isSome_relaxStep]

theorem lookupPr_le_iterRelax (E : List (String × String)) (j : Nat) :
    ∀ (pr : List (String × Int)) (k : String),
      (pr.find? (fun kv => kv.1 == k)).isSome →
      lookupPr pr k ≤ lookupPr (iterRelax E j pr) k := by
  induction j with
  | zero => intro pr k h; exact le_refl _
  | succ j ih =>
    intro pr k h
    rw [iterRelax_succ]
    refine le_trans (lookupPr_le_relaxStep E pr k h) (ih _ k ?_)
    rw [find?_isSome_relaxStep]
    exact h

theorem iterRelax_add (E : List (String × String)) (i j : Nat) :
    ∀ pr : List (String × Int),
      iterRelax E (i + j) pr = iterRelax E i (iterRelax E j pr) := by
  induction j with
  | zero => intro pr; rfl
  | succ j ih =>
    intro pr
    have hn : i + (j + 1) = (i + j) + 1 := rfl
    rw [hn, iterRelax_succ, ih, ← iterRelax_succ]

theorem chain_relax (E : List (String × String)) :
    ∀ (cs : List String) (b : String) (pr : List (String × Int)),
      List.Chain (fun x y => (x, y) ∈ E) b cs →
      (∀ v ∈ b :: cs, ((pr.find? (fun kv => kv.1 == v)).isSome)) →
      lookupPr pr b ≤ lookupPr (iterRelax E cs.length pr)
        ((b :: cs).getLast (List.cons_ne_nil b cs)) := by
  intro cs
  induction cs with
  | nil => intro b pr _ _; exact le_refl _
  | cons m cs ih =>
    intro b pr hchain hent
    rw [List.chain_cons] at hchain
    rw [List.getLast_cons (List.cons_ne_nil m cs), List.length_cons, iterRelax_succ]
    have hstep : lookupPr pr b ≤ lookupPr (relaxStep E pr) m :=
      lookupPr_edge_relaxStep E pr b m hchain.1 (hent m (by simp))
    refine le_trans hstep ?_
    apply ih m (relaxStep E pr) hchain.2
    intro v hv
    rw [find?_isSome_relaxStep]
    exact hent v (List.mem_cons_of_mem _ hv)

theorem lookupPr_map_self (f : String → Int) :
    ∀ (L : List String) (b : String), b ∈ L →
      lookupPr (L.map (fun k => (k, f k))) b = f b := by
  intro L
  induction L with
  | nil => intro b hb; cases hb
  | cons x xs ih =>
    intro b hb
    by_cases hx : x = b
    · subst hx
      unfold lookupPr
      rw [List.map_cons, List.find?_cons_of_pos _ (by simp)]
    · have hstep : lookupPr ((x :: xs).map (fun k => (k, f k))) b
          = lookupPr (xs.map (fun k => (k, f k))) b := by
        unfold lookupPr
        rw [List.map_cons, List.find?_cons_of_neg _ (by simpa using hx)]
      rw [hstep]
      rcases List.mem_cons.mp hb with he | hb'
      · exact absurd he.symm hx
      · exact ih b hb'

theorem find?_isSome_map_self (f : String → Int) (L : List String) (b : String)
    (hb : b ∈ L) :
    ((L.map (fun k => (k, f k))).find? (fun kv => kv.1 == b)).isSome := by
  induction L with
  | nil => cases hb
  | cons x xs ih =>
    rcases List.mem_cons.mp hb with he | hb'
    · subst he
      rw [List.map_cons, List.find?_cons_of_pos _ (by simp)]
      rfl
    · rw [List.map_cons]
      by_cases hx : (((x, f x) : String × Int).1 == b) = true
      · rw [List.find?_cons_of_pos _ (by exact hx)]
        rfl
      · rw [List.find?_cons_of_neg _ (by exact hx)]
        exact ih hb'

theorem metadataEdges_mem (ctx : GameContext) (e : Edge)
    (h : e ∈ metadataEdges ctx) : e.pred ∈ nodes ctx ∧ e.succ ∈ nodes ctx := by
  unfold metadataEdges at h
  rcases List.mem_flatMap.mp h with ⟨kv, hkv, hmem⟩
  rcases List.mem_append.mp hmem with hside | hside <;>
  · rcases List.mem_map.mp hside with ⟨m, hm, heq⟩
    rcases List.mem_filter.mp hm with ⟨_, hmc⟩
    cases heq
    exact ⟨by simpa [List.contains_iff_exists_mem_beq] using hmc,
      List.mem_map_of_mem Prod.fst hkv⟩

theorem softPairs_mem_nodes (ctx : GameContext) (x y : String)
    (h : (x, y) ∈ softPairs ctx) : x ∈ nodes ctx ∧ y ∈ nodes ctx := by
  unfold softPairs at h
  rcases List.mem_map.mp h with ⟨e, he, heq⟩
  rcases List.mem_filter.mp he with ⟨heMeta, _⟩
  cases heq
  exact metadataEdges_mem ctx e heMeta

theorem chain_vertices_mem (ctx : GameContext) :
    ∀ (cs : List String) (b : String),
      List.Chain (fun x y => (x, y) ∈ softPairs ctx) b cs →
      ∀ v ∈ cs, v ∈ nodes ctx := by
  intro cs
  induction cs with
  | nil => intro b _ v hv; cases hv
  | cons m cs ih =>
    intro b hchain v hv
    rw [List.chain_cons] at hchain
    rcases List.mem_cons.mp hv with he | hv'
    · subst he
      exact (softPairs_mem_nodes ctx b v hchain.1).2
    · exact ih m hchain.2 v hv'

theorem nodes_withUserlist (ctx : GameContext) (ul : List MetadataOverlay) :
    nodes { ctx with userlist := ul } = nodes ctx := rfl

/-- C4: if B has explicit priority P and A inherits from B along a chain of
load-after/requirement relations (of any length, over distinct plugins), A's
effective priority after the fixpoint is at least P, and the resolved
priorities do not depend on the order in which the user overlay entries were
registered (only on the per-key lookup they induce). -/
theorem resolvePriorities_priority_inheritance (ctx : GameContext) (b a : String)
    (cs : List String) (hb : b ∈ nodes ctx)
    (hchain : List.Chain (fun x y => (x, y) ∈ softPairs ctx) b cs)
    (hlast : (b :: cs).getLast (List.cons_ne_nil b cs) = a)
    (hnodup : (b :: cs).Nodup) :
    explicitPriority ctx b ≤ lookupPr (resolvePriorities ctx) a ∧
    (∀ ul : List MetadataOverlay,
      (∀ k, findOverlay ul k = findOverlay ctx.userlist k) →
      resolvePriorities { ctx with userlist := ul } = resolvePriorities ctx) := by
  constructor
  · have hverts : ∀ v ∈ b :: cs, v ∈ nodes ctx := by
      intro v hv
      rcases List.mem_cons.mp hv with he | hv'
      · subst he; exact hb
      · exact chain_vertices_mem ctx cs b hchain v hv'
    have hent : ∀ v ∈ b :: cs, (((initPr ctx).find? (fun kv => kv.1 == v)).isSome) := by
      intro v hv
      exact find?_isSome_map_self (explicitPriority ctx) (nodes ctx) v (hverts v hv)
    have hchainle := chain_relax (softPairs ctx) cs b (initPr ctx) hchain hent
    rw [hlast] at hchainle
    have hinit : lookupPr (initPr ctx) b = explicitPriority ctx b :=
      lookupPr_map_self (explicitPriority ctx) (nodes ctx) b hb
    have hlen : (b :: cs).length ≤ (nodes ctx).length :=
      (hnodup.subperm hverts).length_le
    have hd : (nodes ctx).length = ((nodes ctx).length - cs.length) + cs.length := by
      rw [List.length_cons] at hlen
      omega
    have hentA : (((iterRelax (softPairs ctx) cs.length (initPr ctx)).find?
        (fun kv => kv.1 == a)).isSome) := by
      rw [find?_isSome_iterRelax]
      exact find?_isSome_map_self (explicitPriority ctx) (nodes ctx) a
        (hverts a (hlast ▸ List.getLast_mem (List.cons_ne_nil b cs)))
    calc explicitPriority ctx b = lookupPr (initPr ctx) b := hinit.symm
      _ ≤ lookupPr (iterRelax (softPairs ctx) cs.length (initPr ctx)) a := hchainle
      _ ≤ lookupPr (iterRelax (softPairs ctx) (nodes ctx).length (initPr ctx)) a := by
          rw [hd, iterRelax_add]
          exact lookupPr_le_iterRelax _ _ _ a hentA
      _ = lookupPr (resolvePriorities ctx) a := rfl
  · intro ul h
    have hm : ∀ k, mergedOverlay { ctx with userlist := ul } k = mergedOverlay ctx k := by
      intro k
      unfold mergedOverlay
      dsimp only
      rw [h k]
    have hmeta : metadataEdges { ctx with userlist := ul } = metadataEdges ctx := by
      unfold metadataEdges
      dsimp only
      simp only [hm, nodes_withUserlist]
    have hsoft : softPairs { ctx with userlist := ul } = softPairs ctx := by
      unfold softPairs
      rw [hmeta]
    have hexp : ∀ k, explicitPriority { ctx with userlist := ul } k
        = explicitPriority ctx k := by
      intro k
      unfold explicitPriority
      rw [hm]
    have hinitp : initPr { ctx with userlist := ul } = initPr ctx := by
      unfold initPr
      rw [nodes_withUserlist]
      simp only [hexp]
    unfold resolvePriorities
    rw [hsoft, hinitp, nodes_withUserlist]

/-- A user overlay list for the chain context with its entries registered in a
different order but inducing the same per-key lookup. -/
def chainUserPerm : List MetadataOverlay :=
  [ovLA "m.esp" ["b.esp"], ovPr "b.esp" 2, ovLA "a.esp" ["m.esp"]]

theorem findOverlay_perm_chain (k : String) :
    findOverlay chainUserPerm k = findOverlay chainCtx.userlist k := by
  have hcu : chainCtx.userlist
      = [ovPr "b.esp" 2, ovLA "m.esp" ["b.esp"], ovLA "a.esp" ["m.esp"]] := rfl
  rw [hcu]
  unfold chainUserPerm findOverlay ovLA ovPr
  by_cases hb : (("b.esp" : String) = k)
  · subst hb; decide
  · by_cases hm : (("m.esp" : String) = k)
    · subst hm; decide
    · conv_rhs =>
        rw [List.find?_cons_of_neg _ (by simp [hb]), List.find?_cons_of_neg _ (by simp [hm])]
      rw [List.find?_cons_of_neg _ (by simp [hm]), List.find?_cons_of_neg _ (by simp [hb])]

/-- Witness for C4: in the two-hop chain context the inherited effective
priority of the chain's end reaches the origin's explicit priority 2, and
registering the user entries in a different order leaves the resolved
priorities unchanged. -/
theorem resolvePriorities_priority_inheritance_witness :
    ((2 : Int) ≤ lookupPr (resolvePriorities chainCtx) "a.esp") ∧
    resolvePriorities { chainCtx with userlist := chainUserPerm }
      = resolvePriorities chainCtx := by
  have hchain : List.Chain (fun x y => (x, y) ∈ softPairs chainCtx) "b.esp"
      ["m.esp", "a.esp"] :=
    List.chain_cons.mpr ⟨by decide, List.chain_cons.mpr ⟨by decide, List.Chain.nil⟩⟩
  have h := resolvePriorities_priority_inheritance chainCtx "b.esp" "a.esp"
    ["m.esp", "a.esp"] (by decide) hchain (by decide) (by decide)
  exact ⟨le_trans (le_of_eq (by decide)) h.1, h.2 chainUserPerm findOverlay_perm_chain⟩

end Loot
